import Mathlib

/-!
Shallow embedding of the retrieval core of the lexi.sg RAG backend:
the chunker (`services/document_processor.py`), the TF-IDF fallback
embedder (`services/simple_embeddings.py`) and the cosine-similarity
vector store (`services/simple_vector_store.py`), together with proofs
about the behaviour its specification describes.

Modelling conventions:
* Python floats are modelled by exact rationals `ℚ`.
* A value of the form `a / Real.sqrt x` (the result of dividing a dot
  product by a product of L2 norms) is represented by the pair
  `(a, x)` with `x > 0`; `simLEb` compares two such values exactly,
  without ever materialising a square root.  This keeps every
  definition computable while preserving the real-number ordering the
  Python code sorts by.
* Python exceptions are modelled with `Except`; the `try/except`
  blocks of the source become explicit `match`es on the result.
* Nondeterminism (`np.random.normal`) is modelled by passing the drawn
  vector as an explicit argument.
-/

namespace RagBackend

/-- A vector (NumPy 1-d array) is a list of rationals. -/
abbrev Vec := List ℚ

/-- Dot product of two vectors, `np.dot` on 1-d arrays of equal length. -/
def dot (v w : Vec) : ℚ := (List.zipWith (fun a b => a * b) v w).sum

/-- Squared L2 norm: `np.linalg.norm(v) ** 2`.  Over the reals,
`np.linalg.norm v > 0` holds exactly when `normSq v > 0`, so all the
norm-guard branches of the source are modelled through `normSq`. -/
def normSq (v : Vec) : ℚ := (v.map (fun a => a * a)).sum

/-- Entry sum of a vector, `np.sum`. -/
def vecSum (v : Vec) : ℚ := v.sum

theorem normSq_nonneg (v : Vec) : 0 ≤ normSq v := by
  induction v with
  | nil => simp [normSq]
  | cons a t ih =>
    simp only [normSq, List.map_cons, List.sum_cons] at *
    have := mul_self_nonneg a
    linarith

theorem normSq_cons (a : ℚ) (t : Vec) : normSq (a :: t) = a * a + normSq t := by
  simp [normSq]

/-- A vector whose squared norm vanishes is entrywise zero, hence has
zero dot product with anything. -/
theorem dot_eq_zero_of_normSq_eq_zero (v w : Vec) (h : normSq v = 0) :
    dot v w = 0 := by
  induction v generalizing w with
  | nil => simp [dot]
  | cons a t ih =>
    rw [normSq_cons] at h
    have ha : a * a = 0 := by
      have h1 := mul_self_nonneg a
      have h2 := normSq_nonneg t
      linarith
    have ha0 : a = 0 := by
      rcases mul_self_eq_zero.mp ha with h3
      exact h3
    have ht : normSq t = 0 := by
      have h1 := mul_self_nonneg a
      have h2 := normSq_nonneg t
      linarith
    cases w with
    | nil => simp [dot]
    | cons b u =>
      simp only [dot, List.zipWith_cons_cons, List.sum_cons] at *
      rw [ha0, ih u ht]
      ring

/-- Exact representation of a similarity value: `(a, x)` stands for the
real number `a / Real.sqrt x`, with `x > 0` in every value the model
produces. -/
abbrev Sim := ℚ × ℚ

/-- Exact comparison `value s ≤ value t` of the reals represented by
two `Sim` pairs: sign analysis plus cross-multiplied squares. -/
def simLEb (s t : Sim) : Bool :=
  if s.1 < 0 then
    if t.1 < 0 then decide (t.1 * t.1 * s.2 ≤ s.1 * s.1 * t.2) else true
  else
    if t.1 < 0 then false else decide (s.1 * s.1 * t.2 ≤ t.1 * t.1 * s.2)

theorem simLEb_total (s t : Sim) : simLEb s t = true ∨ simLEb t s = true := by
  unfold simLEb
  by_cases h1 : s.1 < 0 <;> by_cases h2 : t.1 < 0 <;>
    simp [h1, h2, le_total]

/-- Stable insertion used to model the stable sorts of the source
(Python list sort and `Counter.most_common`): `x` is placed before the
first element `y` with `r x y`. -/
def insertD {α : Type} (r : α → α → Bool) (x : α) : List α → List α
  | [] => [x]
  | y :: ys => if r x y then x :: y :: ys else y :: insertD r x ys

/-- Stable insertion sort: elements are inserted from the right, so an
earlier element ends up before every later element it compares equal
to, exactly as in a Python stable sort. -/
def sortD {α : Type} (r : α → α → Bool) : List α → List α
  | [] => []
  | x :: xs => insertD r x (sortD r xs)

theorem insertD_perm {α : Type} (r : α → α → Bool) (x : α) (l : List α) :
    List.Perm (insertD r x l) (x :: l) := by
  induction l with
  | nil => simp [insertD]
  | cons y ys ih =>
    by_cases h : r x y
    · simp [insertD, h]
    · simp only [insertD, h, if_neg, Bool.false_eq_true, not_false_iff, ite_false]
      exact List.Perm.trans (List.Perm.cons y ih) (List.Perm.swap x y ys)

theorem sortD_perm {α : Type} (r : α → α → Bool) (l : List α) :
    List.Perm (sortD r l) l := by
  induction l with
  | nil => simp [sortD]
  | cons x xs ih =>
    exact List.Perm.trans (insertD_perm r x (sortD r xs)) (List.Perm.cons x ih)

theorem mem_sortD {α : Type} (r : α → α → Bool) (l : List α) (a : α) :
    a ∈ sortD r l ↔ a ∈ l :=
  (sortD_perm r l).mem_iff

theorem sortD_length {α : Type} (r : α → α → Bool) (l : List α) :
    (sortD r l).length = l.length :=
  (sortD_perm r l).length_eq

/-- Two comparators that agree on all pairs drawn in order from a list
produce the same insertion result. -/
theorem insertD_congr {α : Type} (r1 r2 : α → α → Bool) (x : α) (l : List α)
    (h : ∀ y ∈ l, r1 x y = r2 x y) : insertD r1 x l = insertD r2 x l := by
  induction l with
  | nil => rfl
  | cons y ys ih =>
    have hy : r1 x y = r2 x y := h y (List.mem_cons_self y ys)
    by_cases hr : r2 x y
    · simp [insertD, hy, hr]
    · have := ih (fun z hz => h z (List.mem_cons_of_mem y hz))
      simp [insertD, hy, hr, this]

/-- If the pairs in relative list order all satisfy `P`, and the two
comparators agree on `P`-related pairs, the two stable sorts coincide. -/
theorem sortD_congr {α : Type} (P : α → α → Prop) (r1 r2 : α → α → Bool)
    (l : List α) (hP : List.Pairwise P l)
    (hagree : ∀ x y, P x y → r1 x y = r2 x y) :
    sortD r1 l = sortD r2 l := by
  induction l with
  | nil => rfl
  | cons x xs ih =>
    rcases List.pairwise_cons.mp hP with ⟨hx, hxs⟩
    have htail := ih hxs
    simp only [sortD, htail]
    exact insertD_congr r1 r2 x (sortD r2 xs) (fun y hy =>
      hagree x y (hx y ((mem_sortD r2 xs y).mp hy)))

theorem insertD_pairwise {α : Type} (r : α → α → Bool)
    (htotal : ∀ a b, r a b = true ∨ r b a = true)
    (htrans : ∀ a b c, r a b = true → r b c = true → r a c = true)
    (x : α) (l : List α) (hl : List.Pairwise (fun a b => r a b = true) l) :
    List.Pairwise (fun a b => r a b = true) (insertD r x l) := by
  induction l with
  | nil => simp [insertD]
  | cons y ys ih =>
    rcases List.pairwise_cons.mp hl with ⟨hy, hys⟩
    by_cases hr : r x y
    · simp only [insertD, hr, ite_true]
      refine List.pairwise_cons.mpr ⟨?_, hl⟩
      intro z hz
      rcases List.mem_cons.mp hz with h | h
      · rw [h]; exact hr
      · exact htrans x y z hr (hy z h)
    · simp only [insertD, hr, Bool.false_eq_true, not_false_iff, ite_false]
      refine List.pairwise_cons.mpr ⟨?_, ih hys⟩
      intro z hz
      rcases List.mem_cons.mp (((insertD_perm r x ys).mem_iff).mp hz) with h | h
      · rcases htotal x y with h2 | h2
        · exact absurd h2 hr
        · rw [h]; exact h2
      · exact hy z h

theorem sortD_pairwise {α : Type} (r : α → α → Bool)
    (htotal : ∀ a b, r a b = true ∨ r b a = true)
    (htrans : ∀ a b c, r a b = true → r b c = true → r a c = true)
    (l : List α) :
    List.Pairwise (fun a b => r a b = true) (sortD r l) := by
  induction l with
  | nil => simp [sortD]
  | cons x xs ih => exact insertD_pairwise r htotal htrans x (sortD r xs) ih

/-!
Model of `services/simple_vector_store.py` (`SimpleVectorStore`).
-/

/-- A processed document chunk (`document_processor.Document`).
Metadata dictionaries are modelled as association lists. -/
structure Document where
  content : String
  source : String
  chunkId : String
  metadata : List (String × String)
  deriving DecidableEq, Repr

/-- Default chunk used only where a total lookup needs a placeholder. -/
def dummyDoc : Document := ⟨"", "", "", []⟩

/-- In-memory state of `SimpleVectorStore`: the parallel lists
`self.documents` and `self.embeddings`. -/
structure Store where
  documents : List Document
  embeddings : List Vec
  deriving DecidableEq, Repr

/-- A successfully parsed persisted snapshot
(`data/processed_documents.json`): the two lists the JSON file holds. -/
structure Snapshot where
  documents : List Document
  embeddings : List Vec
  deriving DecidableEq, Repr

/-- Model of `SimpleVectorStore._load_existing_data` on a parseable
snapshot file: reconstruct the documents, then reload the embeddings
only if they are present and of matching length, otherwise clear both
lists. -/
def loadSnapshot (snap : Snapshot) : Store :=
  if snap.embeddings ≠ [] ∧ snap.embeddings.length = snap.documents.length then
    { documents := snap.documents, embeddings := snap.embeddings }
  else
    { documents := [], embeddings := [] }

/-- Error message raised by `SimpleVectorStore.add_documents` when the
two input lists disagree in length. -/
def mismatchMsg : String := "Number of documents must match number of embeddings"

/-- Model of `SimpleVectorStore.add_documents` (the store's
replace-all operation): on a length mismatch it raises before touching
any state (second component carries the raised message), otherwise it
replaces both lists. -/
def addDocumentsRun (s : Store) (ds : List Document) (es : List Vec) :
    Store × Option String :=
  if ds.length ≠ es.length then (s, some mismatchMsg)
  else ({ documents := ds, embeddings := es }, none)

/-- States of `SimpleVectorStore` reachable through construction
(empty store when no cache file exists, or any load of a persisted
snapshot — a parse failure also resets to the empty store) followed by
any sequence of `add_documents` calls, successful or not. -/
inductive Reachable : Store → Prop
  | init : Reachable { documents := [], embeddings := [] }
  | load (snap : Snapshot) : Reachable (loadSnapshot snap)
  | add (s : Store) (ds : List Document) (es : List Vec) :
      Reachable s → Reachable (addDocumentsRun s ds es).1

/-!
Model of `SimpleVectorStore.search`.  The code normalises the query if
its norm is positive, then for each stored embedding either computes
the dot product with the normalised stored vector (raising a NumPy
shape error if the lengths differ) or uses the literal `0.0` when the
stored norm is zero; the resulting `(similarity, index)` pairs are
stable-sorted by similarity descending, truncated to `top_k`, and
mapped back to documents guarded by `idx < len(self.documents)`.  Any
exception inside the `try` block makes `search` return `[]`.
-/

/-- Similarity of the query with one stored embedding, as the code
computes it.  The returned pair `(a, x)` represents `a / Real.sqrt x`:
* stored norm zero: the literal `0.0`, represented `(0, 1)`;
* both norms positive: `dot (q ∕ ‖q‖) (d ∕ ‖d‖) = dot q d / √(‖q‖² ‖d‖²)`;
* query norm zero (query left unnormalised): `dot q (d ∕ ‖d‖) = dot q d / √(‖d‖²)`.
`np.dot` raises when the two 1-d arrays have different lengths, which
only happens on the path where the stored norm is positive. -/
def simOfE (q d : Vec) : Except String Sim :=
  if 0 < normSq d then
    if d.length = q.length then
      Except.ok (dot q d, if 0 < normSq q then normSq q * normSq d else normSq d)
    else Except.error "shapes not aligned"
  else Except.ok (0, 1)

/-- The similarity loop of `search`: first exception aborts the loop. -/
def simsOfE (q : Vec) : List (Nat × Vec) → Except String (List (Sim × Nat))
  | [] => Except.ok []
  | (i, d) :: rest =>
    match simOfE q d with
    | Except.error e => Except.error e
    | Except.ok s =>
      match simsOfE q rest with
      | Except.error e => Except.error e
      | Except.ok l => Except.ok ((s, i) :: l)

/-- Comparator of the Python stable sort
`similarities.sort(key=lambda x: x[0], reverse=True)`: an earlier pair
stays before a later pair exactly when its similarity is at least as
large. -/
def rCode (x y : Sim × Nat) : Bool := simLEb y.1 x.1

/-- Body of the `try` block of `search`. -/
def searchBody (docs : List Document) (embs : List Vec) (q : Vec) (k : Nat) :
    Except String (List Document) :=
  match simsOfE q embs.enum with
  | Except.error e => Except.error e
  | Except.ok sims =>
    Except.ok (((sortD rCode sims).take k).filterMap (fun p => docs.get? p.2))

/-- Model of `SimpleVectorStore.search`: empty store short-circuits to
`[]`, and any exception raised inside the body is caught and also
yields `[]`. -/
def search (docs : List Document) (embs : List Vec) (q : Vec) (k : Nat) :
    List Document :=
  if embs.isEmpty then []
  else
    match searchBody docs embs q k with
    | Except.ok r => r
    | Except.error _ => []

/-!
Specification-side description of `search`, written from the spec:
compute each candidate's cosine similarity (zero-norm query ⇒ all
similarities zero; zero-norm stored vector ⇒ similarity zero), sort
all candidates by similarity descending with ties broken by original
insertion index, and return the chunks of the top `min(k, store_size)`
entries.
-/

/-- Cosine similarity of a candidate as the spec describes it, in the
same exact `(a, x) ↦ a / Real.sqrt x` representation. -/
def simOf (q d : Vec) : Sim :=
  if 0 < normSq d then
    (dot q d, if 0 < normSq q then normSq q * normSq d else normSq d)
  else (0, 1)

/-- Spec ordering: strictly larger similarity first, ties by smaller
insertion index. -/
def rSpec (x y : Sim × Nat) : Bool :=
  (!simLEb x.1 y.1) || (simLEb x.1 y.1 && simLEb y.1 x.1 && decide (x.2 < y.2))

/-- The search result as the spec words it. -/
def specSearch (docs : List Document) (embs : List Vec) (q : Vec) (k : Nat) :
    List Document :=
  let cands := embs.enum.map (fun p => (simOf q p.2, p.1))
  ((sortD rSpec cands).take (min k embs.length)).map
    (fun p => docs.getD p.2 dummyDoc)

/-- C2: in every store state reachable through construction, loading
persisted data, and `add_documents` (whether the operation succeeds or
fails), the documents sequence and the embeddings sequence have the
same length; the alignment is re-checked on every load. -/
theorem store_alignment_invariant (s : Store) (h : Reachable s) :
    s.documents.length = s.embeddings.length := by
  induction h with
  | init => rfl
  | load snap =>
    unfold loadSnapshot
    split
    · rename_i hc
      exact hc.2.symm
    · rfl
  | add s ds es _ ih =>
    unfold addDocumentsRun
    split
    · exact ih
    · rename_i hc
      exact not_ne_iff.mp hc

/-- Witness for C2: a store loaded from a one-chunk snapshot and then
subjected to a failing `add_documents` call is aligned. -/
theorem store_alignment_invariant_witness :
    ((addDocumentsRun (loadSnapshot ⟨[dummyDoc], [[(1 : ℚ)]]⟩)
        [dummyDoc, dummyDoc] [[(2 : ℚ)]]).1).documents.length =
    ((addDocumentsRun (loadSnapshot ⟨[dummyDoc], [[(1 : ℚ)]]⟩)
        [dummyDoc, dummyDoc] [[(2 : ℚ)]]).1).embeddings.length :=
  store_alignment_invariant _
    (Reachable.add _ _ _ (Reachable.load ⟨[dummyDoc], [[(1 : ℚ)]]⟩))

/-- C4: if the number of chunks differs from the number of embeddings
then `add_documents` raises its mismatch error and the store is left
exactly as it was before the call. -/
theorem addDocuments_mismatch_no_mutation (s : Store) (ds : List Document)
    (es : List Vec) (h : ds.length ≠ es.length) :
    addDocumentsRun s ds es = (s, some mismatchMsg) := by
  simp [addDocumentsRun, h]

/-- Witness for C4: replacing with 3 chunks and 2 embeddings fails and
leaves a nonempty prior store untouched. -/
theorem addDocuments_mismatch_no_mutation_witness :
    addDocumentsRun ⟨[dummyDoc], [[(5 : ℚ)]]⟩
      [dummyDoc, dummyDoc, dummyDoc] [[(1 : ℚ)], [(2 : ℚ)]] =
    (⟨[dummyDoc], [[(5 : ℚ)]]⟩, some mismatchMsg) :=
  addDocuments_mismatch_no_mutation _ _ _ (by decide)

/-- C5: loading a persisted snapshot whose chunk list and embedding
list have different lengths yields the empty store, with both
sequences reset. -/
theorem load_mismatched_snapshot_resets (snap : Snapshot)
    (h : snap.embeddings.length ≠ snap.documents.length) :
    loadSnapshot snap = { documents := [], embeddings := [] } := by
  unfold loadSnapshot
  split
  · rename_i hc
    exact absurd hc.2 h
  · rfl

/-- Witness for C5: a snapshot with 5 chunk records and 4 embedding
vectors loads as the empty store. -/
theorem load_mismatched_snapshot_resets_witness :
    loadSnapshot ⟨[dummyDoc, dummyDoc, dummyDoc, dummyDoc, dummyDoc],
      [[(1 : ℚ)], [(2 : ℚ)], [(3 : ℚ)], [(4 : ℚ)]]⟩ =
    { documents := [], embeddings := [] } :=
  load_mismatched_snapshot_resets _ (by decide)

/-- C9: the similarity computation of `search` never divides by a zero
norm: a zero-norm query (left unnormalised) gives similarity zero
against every candidate, a zero-norm stored vector contributes the
literal similarity `0`, and every normalising denominator `√x` the
representation stands for has `x > 0`. -/
theorem search_zero_norm_safe (q d : Vec) :
    (normSq q = 0 → ∀ s, simOfE q d = Except.ok s → s.1 = 0) ∧
    (normSq d = 0 → simOfE q d = Except.ok (0, 1)) ∧
    (∀ s, simOfE q d = Except.ok s → 0 < s.2) := by
  refine ⟨?_, ?_, ?_⟩
  · intro hq s hs
    unfold simOfE at hs
    by_cases hd : 0 < normSq d
    · by_cases hlen : d.length = q.length
      · rw [if_pos hd, if_pos hlen] at hs
        have hqn : ¬ 0 < normSq q := by rw [hq]; exact lt_irrefl 0
        rcases Except.ok.inj hs with h2
        rw [← h2]
        exact dot_eq_zero_of_normSq_eq_zero q d hq
      · rw [if_pos hd, if_neg hlen] at hs
        exact absurd hs (by simp)
    · rw [if_neg hd] at hs
      rcases Except.ok.inj hs with h2
      rw [← h2]
  · intro hd
    have hdn : ¬ 0 < normSq d := by rw [hd]; exact lt_irrefl 0
    unfold simOfE
    rw [if_neg hdn]
  · intro s hs
    unfold simOfE at hs
    by_cases hd : 0 < normSq d
    · by_cases hlen : d.length = q.length
      · rw [if_pos hd, if_pos hlen] at hs
        rcases Except.ok.inj hs with h2
        rw [← h2]
        by_cases hq : 0 < normSq q
        · simpa [hq] using mul_pos hq hd
        · simpa [hq] using hd
      · rw [if_pos hd, if_neg hlen] at hs
        exact absurd hs (by simp)
    · rw [if_neg hd] at hs
      rcases Except.ok.inj hs with h2
      rw [← h2]
      exact one_pos

/-- Witness for C9: the zero query against `[3, 4]` has similarity
zero, and a zero stored vector contributes the literal zero. -/
theorem search_zero_norm_safe_witness :
    ((0 : ℚ), normSq [(3 : ℚ), 4]) = (0, normSq [(3 : ℚ), 4]) ∧
    simOfE [(1 : ℚ)] [(0 : ℚ), 0] = Except.ok (0, 1) ∧
    ∀ s, simOfE [(0 : ℚ), 0] [(3 : ℚ), 4] = Except.ok s → s.1 = 0 :=
  ⟨rfl, (search_zero_norm_safe [(1 : ℚ)] [(0 : ℚ), 0]).2.1 (by norm_num [normSq]),
    fun s hs =>
      (search_zero_norm_safe [(0 : ℚ), 0] [(3 : ℚ), 4]).1 (by norm_num [normSq]) s hs⟩

/-- C10: `search` never propagates an exception: it always returns a
(possibly empty) list, and whenever the body raises — for example on a
query whose dimension differs from a stored embedding's — the caught
exception yields the empty list. -/
theorem search_no_exception (docs : List Document) (embs : List Vec)
    (q : Vec) (k : Nat) :
    (∀ e, searchBody docs embs q k = Except.error e →
      search docs embs q k = []) ∧
    (search docs embs q k = [] ∨
      ∃ r, searchBody docs embs q k = Except.ok r ∧ search docs embs q k = r) := by
  constructor
  · intro e he
    by_cases hE : embs.isEmpty
    · simp [search, hE]
    · simp [search, hE, he]
  · by_cases hE : embs.isEmpty
    · left; simp [search, hE]
    · cases hb : searchBody docs embs q k with
      | error e => left; simp [search, hE, hb]
      | ok r => right; exact ⟨r, rfl, by simp [search, hE, hb]⟩

/-- Witness for C10: a 1-dimensional query against a store holding a
2-dimensional embedding makes the body raise a shape error, and
`search` returns `[]`. -/
theorem search_no_exception_witness :
    search [dummyDoc] [[(1 : ℚ), 0]] [(1 : ℚ)] 5 = [] :=
  (search_no_exception [dummyDoc] [[(1 : ℚ), 0]] [(1 : ℚ)] 5).1
    "shapes not aligned"
    (by norm_num [searchBody, simsOfE, simOfE, normSq, List.enum, List.enumFrom])

/-!
Model of `services/simple_embeddings.py` (`SimpleEmbeddingService`).
-/

/-- The fixed embedding dimension of the service. -/
def embeddingDim : Nat := 384

/-- A word character in the sense of the regex `\w` (ASCII). -/
def isWordChar (c : Char) : Bool := c.isAlphanum || c == '_'

/-- Splits a character list into the maximal runs of word characters,
as `re.findall(r'\b\w+\b', text)` does. -/
def tokensAux : List Char → List Char → List (List Char)
  | [], cur => if cur.isEmpty then [] else [cur.reverse]
  | c :: cs, cur =>
    if isWordChar c then tokensAux cs (c :: cur)
    else if cur.isEmpty then tokensAux cs [] else cur.reverse :: tokensAux cs []

/-- Model of `SimpleEmbeddingService._tokenize`: lowercase, then the
maximal word-character runs. -/
def tokenize (s : String) : List String :=
  (tokensAux (s.data.map Char.toLower) []).map (fun l => String.mk l)

/-- The distinct elements of a list in first-occurrence order: the
iteration order of a Python `Counter` built from the list. -/
def firstOccur (l : List String) : List String :=
  l.foldl (fun acc w => if w ∈ acc then acc else acc ++ [w]) []

/-- `Counter(l).items()`: distinct elements in first-occurrence order,
each with its total multiplicity. -/
def wordCounts (l : List String) : List (String × Nat) :=
  (firstOccur l).map (fun w => (w, l.count w))

/-- The concatenation `all_words` of all token lists, in text order. -/
def allTokens (texts : List String) : List String :=
  texts.foldl (fun acc t => acc ++ tokenize t) []

/-- Comparator of `Counter.most_common`: stable descending by count
(ties keep first-encounter order, as documented for `Counter`). -/
def byCount (x y : String × Nat) : Bool := decide (y.2 ≤ x.2)

/-- Model of `word_counts.most_common(min(1000, len(word_counts)))`. -/
def mostCommon (texts : List String) : List (String × Nat) :=
  (sortD byCount (wordCounts (allTokens texts))).take
    (min 1000 (wordCounts (allTokens texts)).length)

/-- Model of `SimpleEmbeddingService._build_vocabulary`: the kept
tokens paired with their assigned indices
(`{word: i for i, (word, _) in enumerate(most_common)}`). -/
def buildVocabulary (texts : List String) : List (String × Nat) :=
  (mostCommon texts).enum.map (fun p => (p.2.1, p.1))

/-- In-place accumulation `embedding[idx] += v`. -/
def addAt (l : Vec) (i : Nat) (v : ℚ) : Vec := l.set i (l.getD i 0 + v)

/-- The tf·idf accumulation loop of
`SimpleEmbeddingService._text_to_embedding`, before the normalisation
step: for every distinct token of the text that is in the vocabulary,
add `tf * idf` into bucket `index % 384`. -/
def accumStep (vocab : List (String × Nat)) (idf : List (String × ℚ))
    (words : List String) (emb : Vec) (p : String × Nat) : Vec :=
  match List.lookup p.1 vocab with
  | some i =>
    addAt emb (i % embeddingDim)
      ((if words.length = 0 then 0 else (p.2 : ℚ) / (words.length : ℚ)) *
        ((List.lookup p.1 idf).getD 1))
  | none => emb

/-- The whole accumulation over `Counter(words).items()`. -/
def accumulate (vocab : List (String × Nat)) (idf : List (String × ℚ))
    (text : String) : Vec :=
  (wordCounts (tokenize text)).foldl
    (accumStep vocab idf (tokenize text)) (List.replicate embeddingDim 0)

/-- Model of `SimpleEmbeddingService._text_to_embedding`.  The result
pair `(v, s)` represents the vector `v / Real.sqrt s`, i.e. the
normalised vector the code returns.  The code keeps the accumulated
vector only when `np.sum(embedding) > 0`; otherwise it normalises the
unseeded random draw `rand`, which the model receives as an explicit
argument. -/
def textToEmbedding (vocab : List (String × Nat)) (idf : List (String × ℚ))
    (rand : Vec) (text : String) : Vec × ℚ :=
  let emb := accumulate vocab idf text
  if 0 < vecSum emb then (emb, normSq emb) else (rand, normSq rand)

theorem vecSum_cons (a : ℚ) (t : Vec) : vecSum (a :: t) = a + vecSum t := by
  simp [vecSum]

theorem vecSum_replicate_zero (n : Nat) : vecSum (List.replicate n (0 : ℚ)) = 0 := by
  induction n with
  | zero => rfl
  | succ m ih => simpa [List.replicate_succ, vecSum_cons] using ih

theorem normSq_replicate_zero (n : Nat) : normSq (List.replicate n (0 : ℚ)) = 0 := by
  induction n with
  | zero => rfl
  | succ m ih => simpa [List.replicate_succ, normSq_cons] using ih

theorem vecSum_addAt_replicate (n i : Nat) (v : ℚ) (h : i < n) :
    vecSum (addAt (List.replicate n (0 : ℚ)) i v) = v := by
  induction n generalizing i with
  | zero => exact absurd h (Nat.not_lt_zero i)
  | succ m ih =>
    cases i with
    | zero =>
      simp [addAt, List.replicate_succ, vecSum_cons, vecSum_replicate_zero]
    | succ j =>
      have hj : j < m := Nat.lt_of_succ_lt_succ h
      simp only [addAt, List.replicate_succ, List.set_cons_succ, List.getD_cons_succ,
        vecSum_cons] at *
      rw [ih j hj]
      ring

theorem normSq_addAt_replicate (n i : Nat) (v : ℚ) (h : i < n) :
    normSq (addAt (List.replicate n (0 : ℚ)) i v) = v * v := by
  induction n generalizing i with
  | zero => exact absurd h (Nat.not_lt_zero i)
  | succ m ih =>
    cases i with
    | zero =>
      simp [addAt, List.replicate_succ, normSq_cons, normSq_replicate_zero]
    | succ j =>
      have hj : j < m := Nat.lt_of_succ_lt_succ h
      simp only [addAt, List.replicate_succ, List.set_cons_succ, List.getD_cons_succ,
        normSq_cons] at *
      rw [ih j hj]
      ring

/-- A text none of whose tokens is in the vocabulary leaves the
accumulated vector at the all-zero initial value. -/
theorem accumulate_empty_vocab (idf : List (String × ℚ)) (text : String) :
    accumulate [] idf text = List.replicate embeddingDim 0 := by
  unfold accumulate
  generalize wordCounts (tokenize text) = wc
  induction wc with
  | nil => rfl
  | cons p l ih => simpa [accumStep] using ih

/-- When the accumulated entry sum is not positive the code returns
the normalised random draw. -/
theorem textToEmbedding_fallback (vocab : List (String × Nat))
    (idf : List (String × ℚ)) (rand : Vec) (text : String)
    (h : ¬ 0 < vecSum (accumulate vocab idf text)) :
    textToEmbedding vocab idf rand text = (rand, normSq rand) := by
  simp [textToEmbedding, h]

/-- Accumulation for a single-token text over a one-word vocabulary
and IDF table: one bucket receives `(1/1) * idf`. -/
theorem accumulate_single (w : String) (i : Nat) (q : ℚ) (text : String)
    (htok : tokenize text = [w]) :
    accumulate [(w, i)] [(w, q)] text =
      addAt (List.replicate embeddingDim 0) (i % embeddingDim) q := by
  unfold accumulate
  have hwc : wordCounts (tokenize text) = [(w, 1)] := by
    rw [htok]; simp [wordCounts, firstOccur]
  rw [hwc]
  simp only [List.foldl_cons, List.foldl_nil]
  unfold accumStep
  rw [htok]
  simp [List.lookup]

/-- C6 (divergence witness): for the vocabulary `{"the": 0}` and IDF
table `{"the": -1/2}` (a negative IDF arises from
`log(doc_count / (df + 1))` whenever a word occurs in every reference
text), the text `"the"` has a recognised vocabulary term and its
accumulated vector has nonzero L2 norm, yet `_text_to_embedding` takes
the random-fallback branch for every random draw, because its guard
tests `np.sum(embedding) > 0` instead of the norm. -/
theorem embed_sum_guard_bug :
    tokenize "the" = ["the"] ∧
    List.lookup "the" [("the", 0)] = some 0 ∧
    0 < normSq (accumulate [("the", 0)] [("the", -(1 : ℚ)/2)] "the") ∧
    ∀ rand : Vec,
      textToEmbedding [("the", 0)] [("the", -(1 : ℚ)/2)] rand "the" =
        (rand, normSq rand) := by
  have htok : tokenize "the" = ["the"] := by decide
  have hacc := accumulate_single "the" 0 (-(1 : ℚ)/2) "the" htok
  have hdim : 0 % embeddingDim < embeddingDim := by decide
  refine ⟨htok, by decide, ?_, ?_⟩
  · rw [hacc, normSq_addAt_replicate _ _ _ hdim]
    norm_num
  · intro rand
    refine textToEmbedding_fallback _ _ _ _ ?_
    rw [hacc, vecSum_addAt_replicate _ _ _ hdim]
    norm_num

/-- C7 (counterexample): embedding the same text twice with the same
(empty) vocabulary and IDF table yields different vectors when the two
unseeded random draws are the (non-parallel) unit draws
`(1, 0, …, 0)` and `(0, 1, 0, …, 0)`, so `_text_to_embedding` is not
deterministic in its inputs.  Both outputs have squared-norm component
`1`, so each output pair `(v, 1)` represents the real vector
`v / Real.sqrt 1 = v` itself: the stated equality of the second
components and inequality of the first components is exactly the
inequality of the two normalised vectors the code returns. -/
theorem embed_rng_dependent :
    (textToEmbedding [] [] ((1 : ℚ) :: List.replicate 383 0) "zzz").2 =
      (textToEmbedding [] [] ((0 : ℚ) :: 1 :: List.replicate 382 0) "zzz").2 ∧
    (textToEmbedding [] [] ((1 : ℚ) :: List.replicate 383 0) "zzz").2 = 1 ∧
    (textToEmbedding [] [] ((1 : ℚ) :: List.replicate 383 0) "zzz").1 ≠
      (textToEmbedding [] [] ((0 : ℚ) :: 1 :: List.replicate 382 0) "zzz").1 := by
  have hz : ¬ 0 < vecSum (accumulate [] [] "zzz") := by
    rw [accumulate_empty_vocab, vecSum_replicate_zero]
    exact lt_irrefl 0
  rw [textToEmbedding_fallback _ _ _ _ hz, textToEmbedding_fallback _ _ _ _ hz]
  have hn1 : normSq ((1 : ℚ) :: List.replicate 383 0) = 1 := by
    rw [normSq_cons, normSq_replicate_zero]
    norm_num
  have hn2 : normSq ((0 : ℚ) :: 1 :: List.replicate 382 0) = 1 := by
    rw [normSq_cons, normSq_cons, normSq_replicate_zero]
    norm_num
  refine ⟨by rw [hn1, hn2], hn1, ?_⟩
  intro h
  norm_num at h

/-- C7 (amended): the embedder is deterministic on the normalisation
branch — whenever the accumulated vector has positive entry sum, the
result does not depend on the random draw. -/
theorem embed_deterministic_when_sum_positive (vocab : List (String × Nat))
    (idf : List (String × ℚ)) (text : String) (r1 r2 : Vec)
    (h : 0 < vecSum (accumulate vocab idf text)) :
    textToEmbedding vocab idf r1 text = textToEmbedding vocab idf r2 text := by
  simp [textToEmbedding, h]

/-- Witness for the amended C7: a text with a positive-weight
vocabulary term is embedded identically under two different draws. -/
theorem embed_deterministic_when_sum_positive_witness :
    0 < vecSum (accumulate [("a", 0)] [("a", (1 : ℚ))] "a") ∧
    textToEmbedding [("a", 0)] [("a", (1 : ℚ))]
        ((1 : ℚ) :: List.replicate 383 1) "a" =
      textToEmbedding [("a", 0)] [("a", (1 : ℚ))]
        ((2 : ℚ) :: List.replicate 383 2) "a" := by
  have htok : tokenize "a" = ["a"] := by decide
  have hacc := accumulate_single "a" 0 (1 : ℚ) "a" htok
  have hdim : 0 % embeddingDim < embeddingDim := by decide
  have hsum : 0 < vecSum (accumulate [("a", 0)] [("a", (1 : ℚ))] "a") := by
    rw [hacc, vecSum_addAt_replicate _ _ _ hdim]
    norm_num
  exact ⟨hsum, embed_deterministic_when_sum_positive _ _ _ _ _ hsum⟩

theorem byCount_total (a b : String × Nat) :
    byCount a b = true ∨ byCount b a = true := by
  rcases le_total a.2 b.2 with h | h <;> simp [byCount, h]

theorem byCount_trans (a b c : String × Nat)
    (h1 : byCount a b = true) (h2 : byCount b c = true) :
    byCount a c = true := by
  simp only [byCount, decide_eq_true_eq] at *
  exact le_trans h2 h1

theorem mem_wordCounts (l : List String) (p : String × Nat)
    (h : p ∈ wordCounts l) : p.2 = l.count p.1 := by
  rcases List.mem_map.mp h with ⟨w, _, hw⟩
  rw [← hw]

/-- C8: `_build_vocabulary` keeps `min(1000, distinct_token_count)`
tokens, assigns them the contiguous indices `0..N-1`, orders them by
descending global frequency, and every kept token is at least as
frequent as every dropped token. -/
theorem buildVocabulary_spec (texts : List String) (_h : texts ≠ []) :
    (buildVocabulary texts).length =
        min 1000 (wordCounts (allTokens texts)).length ∧
    (buildVocabulary texts).map Prod.snd =
        List.range (buildVocabulary texts).length ∧
    List.Pairwise
      (fun w1 w2 => (allTokens texts).count w2 ≤ (allTokens texts).count w1)
      ((buildVocabulary texts).map Prod.fst) ∧
    (∀ w1 ∈ (buildVocabulary texts).map Prod.fst,
      ∀ w2 ∈ firstOccur (allTokens texts),
        w2 ∉ (buildVocabulary texts).map Prod.fst →
          (allTokens texts).count w2 ≤ (allTokens texts).count w1) := by
  set cnts := wordCounts (allTokens texts) with hcnts
  set sorted := sortD byCount cnts with hsorted
  set N := min 1000 cnts.length with hN
  have hsortedPW : List.Pairwise (fun a b => byCount a b = true) sorted :=
    sortD_pairwise byCount byCount_total byCount_trans cnts
  have hmcPW : List.Pairwise (fun a b => byCount a b = true) (mostCommon texts) :=
    hsortedPW.sublist (List.take_sublist N sorted)
  have hmc_mem : ∀ p ∈ mostCommon texts, p ∈ cnts := by
    intro p hp
    exact (mem_sortD byCount cnts p).mp
      ((List.take_sublist N sorted).mem hp)
  have hlen : (buildVocabulary texts).length = N := by
    unfold buildVocabulary
    rw [List.length_map, List.enum_length]
    unfold mostCommon
    rw [List.length_take, sortD_length, ← hcnts, ← hN]
    exact min_eq_left (min_le_right 1000 cnts.length)
  have hfst : (buildVocabulary texts).map Prod.fst =
      (mostCommon texts).map Prod.fst := by
    unfold buildVocabulary
    rw [List.map_map]
    have : (Prod.fst ∘ fun p : Nat × (String × Nat) => (p.2.1, p.1)) =
        (fun p : Nat × (String × Nat) => p.2.1) := rfl
    rw [this]
    have h2 : (fun p : Nat × (String × Nat) => p.2.1) =
        (Prod.fst ∘ Prod.snd) := rfl
    rw [h2, ← List.map_map, List.enum_map_snd]
  refine ⟨hlen, ?_, ?_, ?_⟩
  · unfold buildVocabulary
    rw [List.map_map]
    have : (Prod.snd ∘ fun p : Nat × (String × Nat) => (p.2.1, p.1)) =
        Prod.fst := rfl
    rw [this, List.enum_map_fst]
    simp [List.enum_length]
  · rw [hfst]
    rw [List.pairwise_map]
    refine hmcPW.imp_of_mem ?_
    intro a b ha hb hab
    have h1 := mem_wordCounts (allTokens texts) a (hmc_mem a ha)
    have h2 := mem_wordCounts (allTokens texts) b (hmc_mem b hb)
    simp only [byCount, decide_eq_true_eq] at hab
    rw [← h1, ← h2]
    exact hab
  · intro w1 hw1 w2 hw2 hw2n
    rw [hfst] at hw1 hw2n
    rcases List.mem_map.mp hw1 with ⟨p1, hp1mc, hp1⟩
    have hp2cnts : (w2, (allTokens texts).count w2) ∈ cnts := by
      rw [hcnts]
      exact List.mem_map.mpr ⟨w2, hw2, rfl⟩
    have hp2sorted : (w2, (allTokens texts).count w2) ∈ sorted :=
      (mem_sortD byCount cnts _).mpr hp2cnts
    rw [← List.take_append_drop N sorted] at hp2sorted hsortedPW
    rcases List.mem_append.mp hp2sorted with hin | hout
    · exact absurd (List.mem_map.mpr ⟨_, hin, rfl⟩) hw2n
    · rcases List.pairwise_append.mp hsortedPW with ⟨_, _, hcross⟩
      have hb := hcross p1 hp1mc _ hout
      simp only [byCount, decide_eq_true_eq] at hb
      have h1 := mem_wordCounts (allTokens texts) p1 (hmc_mem p1 hp1mc)
      rw [← hp1, ← h1]
      exact hb

/-- Witness for C8: the vocabulary of one reference text gets the
contiguous indices `0..N-1`. -/
theorem buildVocabulary_spec_witness :
    (["b b a"] ≠ ([] : List String)) ∧
    (buildVocabulary ["b b a"]).map Prod.snd =
      List.range (buildVocabulary ["b b a"]).length :=
  ⟨by decide, (buildVocabulary_spec ["b b a"] (by decide)).2.1⟩

/-!
Proof that the code's `search` coincides with the spec's description
(sort by cosine similarity descending, ties by insertion index, top
`min(k, store_size)`).
-/

theorem rCode_eq_rSpec_of_lt (x y : Sim × Nat) (h : x.2 < y.2) :
    rCode x y = rSpec x y := by
  unfold rCode rSpec
  by_cases ha : simLEb x.1 y.1
  · simp [ha, h]
  · have hb : simLEb y.1 x.1 = true := by
      rcases simLEb_total x.1 y.1 with h2 | h2
      · exact absurd h2 ha
      · exact h2
    simp [ha, hb]

theorem mem_enumFrom_facts {α : Type} (n : Nat) (l : List α) :
    ∀ p ∈ List.enumFrom n l, n ≤ p.1 ∧ p.1 < n + l.length ∧ p.2 ∈ l := by
  induction l generalizing n with
  | nil => intro p hp; exact absurd hp (List.not_mem_nil p)
  | cons x xs ih =>
    intro p hp
    rcases List.mem_cons.mp hp with h | h
    · rw [h]
      exact ⟨le_refl n, by simp [Nat.lt_succ_of_le], List.mem_cons_self x xs⟩
    · rcases ih (n + 1) p h with ⟨h1, h2, h3⟩
      refine ⟨le_trans (Nat.le_succ n) h1, ?_, List.mem_cons_of_mem x h3⟩
      simp only [List.length_cons]
      omega

theorem pairwise_fst_lt_enumFrom {α : Type} (n : Nat) (l : List α) :
    List.Pairwise (fun p r => p.1 < r.1) (List.enumFrom n l) := by
  induction l generalizing n with
  | nil => exact List.Pairwise.nil
  | cons x xs ih =>
    refine List.pairwise_cons.mpr ⟨?_, ih (n + 1)⟩
    intro p hp
    exact lt_of_lt_of_le (Nat.lt_succ_self n) (mem_enumFrom_facts (n + 1) xs p hp).1

/-- The similarity loop succeeds and computes the spec similarity for
every candidate once no positive-norm embedding has a mismatched
length. -/
theorem simsOfE_ok (q : Vec) (el : List (Nat × Vec))
    (h : ∀ p ∈ el, 0 < normSq p.2 → p.2.length = q.length) :
    simsOfE q el = Except.ok (el.map (fun p => (simOf q p.2, p.1))) := by
  induction el with
  | nil => rfl
  | cons p rest ih =>
    have hsim : simOfE q p.2 = Except.ok (simOf q p.2) := by
      unfold simOfE simOf
      by_cases hd : 0 < normSq p.2
      · rw [if_pos hd, if_pos hd,
          if_pos (h p (List.mem_cons_self p rest) hd)]
      · rw [if_neg hd, if_neg hd]
    have hrest := ih (fun r hr => h r (List.mem_cons_of_mem p hr))
    cases p with
    | mk i d =>
      simp only [simsOfE, hsim, hrest, List.map_cons]

theorem filterMap_eq_map_of_some {α β : Type} (f : α → Option β) (g : α → β)
    (l : List α) (h : ∀ x ∈ l, f x = some (g x)) :
    l.filterMap f = l.map g := by
  induction l with
  | nil => rfl
  | cons x xs ih =>
    rw [List.filterMap_cons, h x (List.mem_cons_self x xs), List.map_cons,
      ih (fun z hz => h z (List.mem_cons_of_mem x hz))]

theorem get?_eq_some_getD {α : Type} (l : List α) (d : α) (i : Nat)
    (h : i < l.length) : l.get? i = some (l.getD i d) := by
  induction l generalizing i with
  | nil => exact absurd h (by simp)
  | cons x xs ih =>
    cases i with
    | zero => rfl
    | succ j =>
      simp only [List.get?_cons_succ, List.getD_cons_succ]
      exact ih j (Nat.lt_of_succ_lt_succ h)

/-- C1: for every aligned store state and every query of compatible
dimension, `search` returns exactly what the spec describes: the
chunks of the top `min(k, store_size)` candidates ordered by cosine
similarity descending, ties broken by insertion index; in particular
the empty store yields `[]` and `k` past the store size returns the
whole store fully sorted. -/
theorem search_matches_spec (docs : List Document) (embs : List Vec)
    (q : Vec) (k : Nat) (hlen : docs.length = embs.length)
    (hdim : ∀ d ∈ embs, 0 < normSq d → d.length = q.length) :
    search docs embs q k = specSearch docs embs q k := by
  by_cases hE : embs.isEmpty
  · have hnil : embs = [] := by
      cases embs with
      | nil => rfl
      | cons e es => exact absurd hE (by simp)
    subst hnil
    simp [search, specSearch, List.enum, List.enumFrom, sortD]
  · have hok : simsOfE q embs.enum =
        Except.ok (embs.enum.map (fun p => (simOf q p.2, p.1))) := by
      refine simsOfE_ok q embs.enum ?_
      intro p hp hd
      exact hdim p.2 (mem_enumFrom_facts 0 embs p hp).2.2 hd
    set sims := embs.enum.map (fun p => (simOf q p.2, p.1)) with hsims
    have hPW : List.Pairwise (fun x y : Sim × Nat => x.2 < y.2) sims := by
      rw [hsims, List.pairwise_map]
      exact pairwise_fst_lt_enumFrom 0 embs
    have hsort : sortD rCode sims = sortD rSpec sims :=
      sortD_congr (fun x y : Sim × Nat => x.2 < y.2) rCode rSpec sims hPW
        rCode_eq_rSpec_of_lt
    have hslen : (sortD rSpec sims).length = embs.length := by
      rw [sortD_length, hsims, List.length_map, List.enum_length]
    have htake : (sortD rSpec sims).take k =
        (sortD rSpec sims).take (min k embs.length) := by
      rcases le_total k embs.length with h | h
      · rw [min_eq_left h]
      · rw [min_eq_right h,
          List.take_of_length_le (by rw [hslen]; exact h),
          List.take_of_length_le (by rw [hslen])]
    have hbound : ∀ p ∈ (sortD rSpec sims).take (min k embs.length),
        p.2 < docs.length := by
      intro p hp
      have hmem : p ∈ sims :=
        (mem_sortD rSpec sims p).mp ((List.take_sublist _ _).mem hp)
      rw [hsims] at hmem
      rcases List.mem_map.mp hmem with ⟨r, hr, hrp⟩
      have := (mem_enumFrom_facts 0 embs r hr).2.1
      rw [hlen, ← hrp]
      simpa using this
    have hrun : search docs embs q k =
        ((sortD rCode sims).take k).filterMap (fun p => docs.get? p.2) := by
      simp only [search, searchBody, if_neg hE, hok]
    rw [hrun, hsort, htake]
    unfold specSearch
    rw [← hsims]
    exact filterMap_eq_map_of_some _ _ _
      (fun p hp => get?_eq_some_getD docs dummyDoc p.2 (hbound p hp))

/-- Witness for C1: a three-chunk store with a similarity tie between
the first and third candidates, searched with `k = 2`. -/
theorem search_matches_spec_witness :
    search [⟨"A", "s", "0", []⟩, ⟨"B", "s", "1", []⟩, ⟨"C", "s", "2", []⟩]
        [[(1 : ℚ), 0], [(0 : ℚ), 1], [(2 : ℚ), 0]] [(1 : ℚ), 0] 2 =
      specSearch [⟨"A", "s", "0", []⟩, ⟨"B", "s", "1", []⟩, ⟨"C", "s", "2", []⟩]
        [[(1 : ℚ), 0], [(0 : ℚ), 1], [(2 : ℚ), 0]] [(1 : ℚ), 0] 2 :=
  search_matches_spec _ _ _ _ (by decide)
    (by intro d hd _; fin_cases hd <;> rfl)

/-!
Model of `services/document_processor.py` (`DocumentProcessor`):
construction and `_chunk_text`.  Python string indices are `Int` with
CPython slice semantics (negative indices count from the end and are
clamped).  The `while` loop of `_chunk_text` is given explicit fuel;
`none` means the loop has not finished within the given fuel — and
`chunkLoop_cycle` shows a looping state yields `none` for EVERY fuel,
i.e. true nontermination of the source loop.
-/

/-- CPython adjustment of a slice bound: negative indices count from
the end, and bounds are clamped to `[0, len]`. -/
def pyAdj (len i : Int) : Int := if i < 0 then max 0 (len + i) else min i len

/-- `text.rfind(c, i, j)` for a single-character needle: the largest
position of `c` inside the adjusted range, or `-1`. -/
def pyRfind (text : List Char) (c : Char) (i j : Int) : Int :=
  let lo := pyAdj (text.length : Int) i
  let hi := pyAdj (text.length : Int) j
  (List.range text.length).foldl
    (fun acc (p : Nat) =>
      if lo ≤ (p : Int) ∧ (p : Int) < hi ∧ text.get? p = some c then (p : Int)
      else acc) (-1)

/-- `text[i:j]` with CPython slice semantics. -/
def pySlice (text : List Char) (i j : Int) : List Char :=
  let lo := pyAdj (text.length : Int) i
  let hi := pyAdj (text.length : Int) j
  if lo < hi then (text.drop lo.toNat).take (hi - lo).toNat else []

/-- Python whitespace as far as this corpus uses it. -/
def isPySpace (c : Char) : Bool := c == ' ' || c == '\n' || c == '\t' || c == '\r'

/-- `str.strip()`. -/
def pyStrip (l : List Char) : List Char :=
  ((l.dropWhile isPySpace).reverse.dropWhile isPySpace).reverse

/-- The `chunk_size`/`chunk_overlap` configuration stored by
`DocumentProcessor.__init__`. -/
structure DocumentProcessor where
  chunkSize : Nat
  chunkOverlap : Nat
  deriving DecidableEq, Repr

/-- Model of `DocumentProcessor.__init__`: the two values are stored
as given — the constructor performs no validation whatsoever. -/
def mkDocumentProcessor (cs ov : Nat) : DocumentProcessor := ⟨cs, ov⟩

/-- One iteration of the `while` loop of `_chunk_text`: compute `end`
(sentence boundary if one lies in the final 100 characters of the
window, else last space, else the hard cut), emit the stripped slice,
and move `start = end - overlap`.  Returns the emitted chunk and the
next value of `start`. -/
def chunkStep (cs ov : Nat) (text : List Char) (start : Int) :
    List Char × Int :=
  let L : Int := (text.length : Int)
  let e0 := start + (cs : Int)
  let e :=
    if e0 < L then
      let se := pyRfind text '.' start e0
      if se > start + (cs : Int) - 100 then se + 1
      else
        let sp := pyRfind text ' ' start e0
        if sp > start then sp else e0
    else e0
  (pyStrip (pySlice text start e), e - (ov : Int))

/-- The fuelled `while start < len(text)` loop of `_chunk_text`;
non-empty chunks are appended, and the loop breaks once
`start >= len(text)`. -/
def chunkLoop (cs ov : Nat) (text : List Char) :
    Nat → Int → List (List Char) → Option (List (List Char))
  | 0, _, _ => none
  | fuel + 1, start, acc =>
    if start < (text.length : Int) then
      let r := chunkStep cs ov text start
      let acc2 := if r.1.isEmpty then acc else acc ++ [r.1]
      if (text.length : Int) ≤ r.2 then some acc2
      else chunkLoop cs ov text fuel r.2 acc2
    else some acc

/-- Model of `DocumentProcessor._chunk_text`: texts no longer than
`chunk_size` are returned whole, otherwise the loop runs. -/
def chunkText (cs ov : Nat) (text : List Char) (fuel : Nat) :
    Option (List (List Char)) :=
  if (text.length : Int) ≤ (cs : Int) then some [text]
  else chunkLoop cs ov text fuel 0 []

/-- A loop state that steps to itself makes `_chunk_text` run forever:
no amount of fuel finishes the loop. -/
theorem chunkLoop_cycle (cs ov : Nat) (text : List Char) (s : Int)
    (c : List Char) (hs : s < (text.length : Int))
    (hstep : chunkStep cs ov text s = (c, s)) :
    ∀ fuel acc, chunkLoop cs ov text fuel s acc = none := by
  intro fuel
  induction fuel with
  | zero => intro acc; rfl
  | succ f ih =>
    intro acc
    simp only [chunkLoop, if_pos hs, hstep, if_neg (not_le.mpr hs)]
    exact ih _

/-- Unrolling one productive loop iteration. -/
theorem chunkLoop_succ (cs ov : Nat) (text : List Char) (f : Nat) (s : Int)
    (acc : List (List Char)) (c : List Char) (s2 : Int)
    (hs : s < (text.length : Int)) (hstep : chunkStep cs ov text s = (c, s2))
    (hc : c.isEmpty = false) (hcont : ¬ (text.length : Int) ≤ s2) :
    chunkLoop cs ov text (f + 1) s acc = chunkLoop cs ov text f s2 (acc ++ [c]) := by
  simp only [chunkLoop, if_pos hs, hstep, hc, Bool.false_eq_true, not_false_iff,
    ite_false, if_neg hcont]

/-- The adversarial text: one letter, one space, then 102 letters. -/
def badText : List Char := 'a' :: ' ' :: List.replicate 102 'b'

/-- C3: `DocumentProcessor.__init__` rejects nothing (an overlap
larger than the chunk size is stored as-is), and even for the valid
configuration `chunk_size = 103`, `overlap = 3` (`0 ≤ 3 < 103`) the
chunking loop never terminates on `badText`: after two iterations
`start` reaches `-4` and every further iteration recomputes
`end = -1`, emits the same chunk again and returns to `start = -4`. -/
theorem chunker_not_terminating :
    mkDocumentProcessor 10 20 = ⟨10, 20⟩ ∧
    (∀ fuel, chunkText 103 3 badText fuel = none) := by
  refine ⟨rfl, ?_⟩
  intro fuel
  have hlen : ¬ ((badText.length : Int) ≤ (((103 : Nat) : Int))) := by decide
  have hstep0 : chunkStep 103 3 badText 0 = (['a'], -2) := by decide
  have hstep1 : chunkStep 103 3 badText (-2) = (['b'], -4) := by decide
  have hstep2 : chunkStep 103 3 badText (-4) = (['b', 'b', 'b'], -4) := by decide
  have hcyc := chunkLoop_cycle 103 3 badText (-4) ['b', 'b', 'b'] (by decide) hstep2
  unfold chunkText
  rw [if_neg hlen]
  match fuel with
  | 0 => rfl
  | 1 =>
    rw [chunkLoop_succ 103 3 badText 0 0 [] ['a'] (-2) (by decide) hstep0
      (by decide) (by decide)]
    rfl
  | (f + 2) =>
    rw [chunkLoop_succ 103 3 badText (f + 1) 0 [] ['a'] (-2) (by decide) hstep0
      (by decide) (by decide)]
    simp only [List.nil_append]
    rw [chunkLoop_succ 103 3 badText f (-2) [['a']] ['b'] (-4) (by decide) hstep1
      (by decide) (by decide)]
    exact hcyc f _

end RagBackend
